import Mathlib

/-!
Verification of the fuzzy-match-utils library (`dist/fuzzy-match-utils.js`).

Strings are modelled as lists of Unicode scalars (`List Char`), JavaScript
numbers as exact rationals (`ℚ`), and the two dynamic-programming table fills
as recursions indexed exactly like the JavaScript tables.
-/

namespace FuzzyMatch

/-- Model of a React-Select option record: `label` and `value` may each be
`null`/`undefined` (modelled as `none`).  The library treats the `value`
payload as an uninterpreted identifier; we fix its carrier to `Nat`. -/
structure SelectOption where
  label : Option (List Char)
  value : Option Nat
deriving DecidableEq

/-- Substitution table: ordered pattern/replacement pairs, as produced by
`Object.keys(substitutions)` in insertion order.  The source applies each key
as a global regular-expression match; the claims under verification never
depend on pattern metacharacters, so patterns are modelled as literal strings
replaced globally. -/
abbrev SubTable := List (List Char × List Char)

/-- Model of JavaScript `String.prototype.toUpperCase` on a single scalar.
The mapping is exact on the Basic Latin and Latin-1 blocks (including the
multi-character expansion `ß ↦ SS` and the out-of-block images `µ ↦ Μ`,
`ÿ ↦ Ÿ`).  Scalars from `U+0100` upward are left unchanged, a simplification:
the real mapping sends a few of them into ASCII uppercase letters (`ı ↦ I`,
`ſ ↦ S`, `ﬁ ↦ FI`), which the strip step keeps while this model drops the
whole scalar.  No uppercase image of any scalar lies in `a`–`z`, the digits,
or `U+00E0`–`U+00FC`, so the output-alphabet and idempotence theorems below
hold of the real mapping as well. -/
def jsUpperChar (c : Char) : List Char :=
  if 0x61 ≤ c.toNat ∧ c.toNat ≤ 0x7A then [Char.ofNat (c.toNat - 0x20)]
  else if c.toNat = 0xB5 then [Char.ofNat 0x39C]
  else if c.toNat = 0xDF then ['S', 'S']
  else if (0xE0 ≤ c.toNat ∧ c.toNat ≤ 0xF6) ∨ (0xF8 ≤ c.toNat ∧ c.toNat ≤ 0xFE) then
    [Char.ofNat (c.toNat - 0x20)]
  else if c.toNat = 0xFF then [Char.ofNat 0x178]
  else [c]

/-- Model of `input.toUpperCase()` on a whole string. -/
def jsToUpperCase (s : List Char) : List Char :=
  s.flatMap jsUpperChar

/-- Characters that survive `replace(/((?=[^à-ü])\W)|_/g, '')`:
the regex deletes every `\W` character (not ASCII alphanumeric or underscore)
that lies outside `U+00E0`–`U+00FC`, and also deletes underscore itself; so a
character is kept iff it is an ASCII digit or letter, or lies in the range
`U+00E0`–`U+00FC`. -/
def keepChar (c : Char) : Bool :=
  decide (((0x30 ≤ c.toNat ∧ c.toNat ≤ 0x39) ∨ (0x41 ≤ c.toNat ∧ c.toNat ≤ 0x5A) ∨
    (0x61 ≤ c.toNat ∧ c.toNat ≤ 0x7A)) ∨ (0xE0 ≤ c.toNat ∧ c.toNat ≤ 0xFC))

/-- The strip step of `cleanUpText`: global single-character deletion is a
filter over the kept characters. -/
def stripSymbols (s : List Char) : List Char :=
  s.filter keepChar

/-- Model of `output.replace(new RegExp(pattern, 'g'), replacement)` for a
literal pattern: replace every (leftmost, non-overlapping) occurrence of
`pat` in the subject by `repl`.  An empty pattern leaves the subject
unchanged (no claim exercises the empty pattern). -/
def replaceAll (pat repl : List Char) : List Char → List Char
  | [] => []
  | c :: rest =>
    if h : pat.isPrefixOf (c :: rest) ∧ pat ≠ [] then
      repl ++ replaceAll pat repl ((c :: rest).drop pat.length)
    else
      c :: replaceAll pat repl rest
termination_by s => s.length
decreasing_by
  · have hlen : 1 ≤ pat.length := by
      cases hp : pat with
      | nil => exact absurd hp h.2
      | cons d ds => simp [hp]
    simp only [List.length_drop, List.length_cons]
    omega
  · simp

/-- Model of `cleanUpText(input, substitutions)`: return `""` on a falsy
input; otherwise uppercase, strip, and (when a table is present) fold the
substitutions over the running output in order.  An absent table and an empty
table both leave the stripped text unchanged, so both are modelled by `[]`. -/
def cleanUpText (input : List Char) (substitutions : SubTable) : List Char :=
  if input = [] then []
  else
    substitutions.foldl (fun output p => replaceAll p.1 p.2 output)
      (stripSymbols (jsToUpperCase input))

/-- Row `x + 1` of the LCS dynamic-programming table, given row `x` as `prev`:
entry 0 is 0 (the zero first column), and entry `y + 1` is
`(a[x] === b[y]) ? 1 + table[x][y] : max(table[x+1][y], table[x][y+1])`,
exactly the inner loop of `typeaheadSimilarity`. -/
def lcsRow (a b : List Char) (x : ℕ) (prev : ℕ → ℕ) : ℕ → ℕ
  | 0 => 0
  | y + 1 =>
    if a[x]? = b[y]? then 1 + prev y
    else max (lcsRow a b x prev y) (prev (y + 1))

/-- The LCS dynamic-programming table of `typeaheadSimilarity`:
`lcsTable a b x y` is `table[x][y]`; row 0 is all zero, and each later row is
filled from its predecessor by `lcsRow` (see `lcsTable_succ_succ` for the
cell-level recurrence, matching the JavaScript loops). -/
def lcsTable (a b : List Char) : ℕ → ℕ → ℕ
  | 0 => fun _ => 0
  | x + 1 => lcsRow a b x (lcsTable a b x)

/-- The argument swap of `typeaheadSimilarity`: reassign `a` and `b` so that
the first component is not shorter than the second. -/
def swapPair (a b : List Char) : List Char × List Char :=
  if a.length < b.length then (b, a) else (a, b)

/-- Model of `typeaheadSimilarity(a, b)`.  The source captures
`aLength = a.length` and `bLength = b.length` BEFORE the swap and never
updates them.  So: zero when either string is empty; swap so `p.1` is not
shorter; when `p.1` contains `p.2` as a contiguous substring
(`a.indexOf(b) !== -1`) return the frozen `bLength + 1/aLength`; otherwise
the table corner `table[aLength][bLength]`, whose loops also run to the
frozen bounds — after a swap this stops at row `aLength` of the longer
string and reads past the end of the shorter one (`undefined` in JS,
modelled by the `none` that `p.2[y]?` yields out of range, never equal to a
character). -/
def typeaheadSimilarity (a b : List Char) : ℚ :=
  if a.length = 0 ∨ b.length = 0 then 0
  else
    let p := swapPair a b
    if p.2 <:+: p.1 then (b.length : ℚ) + 1 / (a.length : ℚ)
    else (lcsTable p.1 p.2 a.length b.length : ℚ)

/-- Row `x + 1` of the Levenshtein dynamic-programming table, given row `x` as
`prev`: entry 0 is `x + 1` (the `0..aLength` first column), and entry `y + 1`
is `(a[x] === b[y]) ? table[x][y]
   : 1 + min(table[x][y+1], table[x+1][y], table[x][y])`,
exactly the inner loop of `fullStringDistance`. -/
def distRow (a b : List Char) (x : ℕ) (prev : ℕ → ℕ) : ℕ → ℕ
  | 0 => x + 1
  | y + 1 =>
    if a[x]? = b[y]? then prev y
    else 1 + min (prev (y + 1)) (min (distRow a b x prev y) (prev y))

/-- The Levenshtein dynamic-programming table of `fullStringDistance`:
`distTable a b x y` is `table[x][y]`; row 0 is `0..bLength`, and each later
row is filled from its predecessor by `distRow` (see `distTable_succ_succ` for
the cell-level recurrence, matching the JavaScript loops). -/
def distTable (a b : List Char) : ℕ → ℕ → ℕ
  | 0 => fun y => y
  | x + 1 => distRow a b x (distTable a b x)

/-- Model of `fullStringDistance(a, b)`: the other string's length when either
is empty, otherwise the Levenshtein table corner. -/
def fullStringDistance (a b : List Char) : ℕ :=
  if a.length = 0 then b.length
  else if b.length = 0 then a.length
  else distTable a b a.length b.length

/-- Model of `filterOptions(options, filter, substitutions)`: identity on a
falsy filter; otherwise drop malformed options, pair each survivor with the
similarity of its normalized label to the normalized filter, keep scores of at
least `cleanFilter.length - 2`, sort by descending score (a stable merge sort,
matching the ECMAScript stable `Array.prototype.sort`), and project the
options back out. -/
def filterOptions (options : List SelectOption) (filter : List Char)
    (substitutions : SubTable) : List SelectOption :=
  if filter = [] then options
  else
    let cleanFilter := cleanUpText filter substitutions
    ((((options.filter fun o => o.label.isSome && o.value.isSome).map
        fun o => (o, typeaheadSimilarity (cleanUpText (o.label.getD []) substitutions)
          cleanFilter)).filter
        fun p => decide ((cleanFilter.length : ℚ) - 2 ≤ p.2)).mergeSort
        fun p q => decide (q.2 ≤ p.2)).map
      fun p => p.1

/-- Cell-level recurrence of the LCS table, as in the JavaScript inner loop. -/
theorem lcsTable_succ_succ (a b : List Char) (x y : ℕ) :
    lcsTable a b (x + 1) (y + 1) =
      if a[x]? = b[y]? then 1 + lcsTable a b x y
      else max (lcsTable a b (x + 1) y) (lcsTable a b x (y + 1)) := rfl

@[simp] theorem lcsTable_zero_left (a b : List Char) (y : ℕ) : lcsTable a b 0 y = 0 := rfl

@[simp] theorem lcsTable_zero_right (a b : List Char) (x : ℕ) : lcsTable a b x 0 = 0 := by
  cases x <;> rfl

/-- Cell-level recurrence of the Levenshtein table, as in the JavaScript inner
loop. -/
theorem distTable_succ_succ (a b : List Char) (x y : ℕ) :
    distTable a b (x + 1) (y + 1) =
      if a[x]? = b[y]? then distTable a b x y
      else 1 + min (distTable a b x (y + 1))
        (min (distTable a b (x + 1) y) (distTable a b x y)) := rfl

@[simp] theorem distTable_zero_left (a b : List Char) (y : ℕ) : distTable a b 0 y = y := rfl

@[simp] theorem distTable_zero_right (a b : List Char) (x : ℕ) : distTable a b x 0 = x := by
  cases x <;> rfl

/-- Concrete input of claim C4. -/
def scoilInput : List Char := "Scoil Bhríde Primary School".data

/-- What the code actually returns on `scoilInput` (no `I`). -/
def scoilActual : List Char := "SCOILBHRDEPRIMARYSCHOOL".data

/-- What claim C4 says the code returns (with an `I`). -/
def scoilClaimed : List Char := "SCOILBHRIDEPRIMARYSCHOOL".data

/-- Concrete pair used by the spec's substring-bonus example. -/
def wallenbergHigh : List Char := "WALLENBERG HIGH".data

/-- The school name contained in `wallenbergHigh`. -/
def wallenberg : List Char := "WALLENBERG".data

example : cleanUpText scoilInput [] = scoilActual := by decide

example : typeaheadSimilarity wallenbergHigh wallenberg = 10 + 1 / 15 := by
  with_unfolding_all decide

example : typeaheadSimilarity ['A'] ['A'] = 2 := by
  with_unfolding_all decide

example : fullStringDistance ['A', 'B'] ['B'] = 1 := by decide

example : filterOptions [⟨none, none⟩] [] [] = [⟨none, none⟩] := rfl

/-- The similarity score is never negative: both the substring-bonus branch
and the LCS table produce non-negative rationals. -/
theorem typeaheadSimilarity_nonneg (a b : List Char) : 0 ≤ typeaheadSimilarity a b := by
  unfold typeaheadSimilarity
  split
  · exact le_refl 0
  · dsimp only
    split
    · positivity
    · exact_mod_cast Nat.zero_le _

/-! DistanceScorer: `fullStringDistance` computes the Levenshtein edit
distance, characterized as the least cost of an edit script. -/

/-- Edit scripts between two strings, processed left to right: `Aligns u v n`
holds when `u` can be transformed into `v` paying for `n` single-character
operations — substitution, deletion and insertion cost 1, copying a matching
character is free.  The Levenshtein distance of `u` and `v` is the least `n`
with `Aligns u v n`. -/
inductive Aligns : List Char → List Char → ℕ → Prop
  | nil : Aligns [] [] 0
  | copy (c : Char) {u v : List Char} {n : ℕ} :
      Aligns u v n → Aligns (c :: u) (c :: v) n
  | subst (c d : Char) {u v : List Char} {n : ℕ} :
      Aligns u v n → Aligns (c :: u) (d :: v) (n + 1)
  | del (c : Char) {u v : List Char} {n : ℕ} :
      Aligns u v n → Aligns (c :: u) v (n + 1)
  | ins (d : Char) {u v : List Char} {n : ℕ} :
      Aligns u v n → Aligns u (d :: v) (n + 1)

/-- Structural head-first Levenshtein recursion; the stepping stone between
the prefix-indexed table of the source and the edit-script characterization. -/
def lev : List Char → List Char → ℕ
  | [], ys => ys.length
  | _ :: xs, [] => xs.length + 1
  | x :: xs, y :: ys =>
    if x = y then lev xs ys
    else 1 + min (lev xs (y :: ys)) (min (lev (x :: xs) ys) (lev xs ys))
termination_by u v => u.length + v.length
decreasing_by all_goals (simp only [List.length_cons]; omega)

theorem lev_nil_left (v : List Char) : lev [] v = v.length := by
  simp [lev]

theorem lev_nil_right (u : List Char) : lev u [] = u.length := by
  cases u <;> simp [lev]

theorem aligns_nil_left : ∀ v : List Char, Aligns [] v v.length
  | [] => Aligns.nil
  | d :: v => Aligns.ins d (aligns_nil_left v)

theorem aligns_nil_right : ∀ u : List Char, Aligns u [] u.length
  | [] => Aligns.nil
  | c :: u => Aligns.del c (aligns_nil_right u)

theorem aligns_length {u v : List Char} {n : ℕ} (h : Aligns u v n) :
    u.length ≤ v.length + n ∧ v.length ≤ u.length + n := by
  induction h with
  | nil => omega
  | copy c h ih => simp only [List.length_cons]; omega
  | subst c d h ih => simp only [List.length_cons]; omega
  | del c h ih => simp only [List.length_cons]; omega
  | ins d h ih => simp only [List.length_cons]; omega

theorem aligns_symm {u v : List Char} {n : ℕ} (h : Aligns u v n) : Aligns v u n := by
  induction h with
  | nil => exact Aligns.nil
  | copy c h ih => exact Aligns.copy c ih
  | subst c d h ih => exact Aligns.subst d c ih
  | del c h ih => exact Aligns.ins c ih
  | ins d h ih => exact Aligns.del d ih

/-- Dropping the head of the right-hand string raises the attainable cost by
at most one. -/
theorem aligns_drop_right {u w : List Char} {n : ℕ} (h : Aligns u w n) :
    ∀ {y : Char} {v : List Char}, w = y :: v → ∃ m, m ≤ n + 1 ∧ Aligns u v m := by
  induction h with
  | nil => intro y v hw; exact absurd hw (by simp)
  | copy c h ih =>
    intro y v hw
    obtain ⟨rfl, rfl⟩ : c = y ∧ _ = v := by
      simpa using hw
    exact ⟨_, le_refl _, Aligns.del c h⟩
  | subst c d h ih =>
    intro y v hw
    obtain ⟨rfl, rfl⟩ : d = y ∧ _ = v := by
      simpa using hw
    exact ⟨_, by omega, Aligns.del c h⟩
  | del c h ih =>
    intro y v hw
    obtain ⟨m, hm, ham⟩ := ih hw
    exact ⟨m + 1, by omega, Aligns.del c ham⟩
  | ins d h ih =>
    intro y v hw
    obtain ⟨rfl, rfl⟩ : d = y ∧ _ = v := by
      simpa using hw
    exact ⟨_, by omega, h⟩

/-- Dropping the head of the left-hand string raises the attainable cost by
at most one. -/
theorem aligns_drop_left {x : Char} {u v : List Char} {n : ℕ}
    (h : Aligns (x :: u) v n) : ∃ m, m ≤ n + 1 ∧ Aligns u v m := by
  obtain ⟨m, hm, ham⟩ := aligns_drop_right (aligns_symm h) rfl
  exact ⟨m, hm, aligns_symm ham⟩

/-- Existence: the structural recursion's value is attained by an edit
script. -/
theorem aligns_lev (u v : List Char) : Aligns u v (lev u v) := by
  induction u, v using lev.induct with
  | case1 ys =>
    rw [lev_nil_left]
    exact aligns_nil_left ys
  | case2 x xs =>
    rw [lev_nil_right]
    exact aligns_nil_right (x :: xs)
  | case3 xs y ys ih =>
    rw [show lev (y :: xs) (y :: ys) = lev xs ys by simp [lev]]
    exact Aligns.copy y ih
  | case4 x xs y ys hxy ih1 ih2 ih3 =>
    rw [show lev (x :: xs) (y :: ys) =
        1 + min (lev xs (y :: ys)) (min (lev (x :: xs) ys) (lev xs ys)) by
      simp [lev, hxy]]
    rcases Nat.le_total (lev xs (y :: ys)) (min (lev (x :: xs) ys) (lev xs ys)) with
      hA | hA
    · rw [Nat.min_eq_left hA, Nat.add_comm]
      exact Aligns.del x ih1
    · rw [Nat.min_eq_right hA]
      rcases Nat.le_total (lev (x :: xs) ys) (lev xs ys) with hB | hB
      · rw [Nat.min_eq_left hB, Nat.add_comm]
        exact Aligns.ins y ih2
      · rw [Nat.min_eq_right hB, Nat.add_comm]
        exact Aligns.subst x y ih3

/-- Minimality: every edit script costs at least the structural recursion's
value. -/
theorem lev_le_of_aligns (u v : List Char) : ∀ n, Aligns u v n → lev u v ≤ n := by
  induction u, v using lev.induct with
  | case1 ys =>
    intro n h
    rw [lev_nil_left]
    have := (aligns_length h).2
    simpa using this
  | case2 x xs =>
    intro n h
    rw [lev_nil_right]
    have := (aligns_length h).1
    simpa using this
  | case3 xs y ys ih =>
    intro n h
    rw [show lev (y :: xs) (y :: ys) = lev xs ys by simp [lev]]
    cases h with
    | copy _ h' => exact ih n h'
    | subst _ _ h' => exact Nat.le_succ_of_le (ih _ h')
    | del _ h' =>
      obtain ⟨m, hm, ham⟩ := aligns_drop_right h' rfl
      exact le_trans (ih m ham) hm
    | ins _ h' =>
      obtain ⟨m, hm, ham⟩ := aligns_drop_left h'
      exact le_trans (ih m ham) hm
  | case4 x xs y ys hxy ih1 ih2 ih3 =>
    intro n h
    rw [show lev (x :: xs) (y :: ys) =
        1 + min (lev xs (y :: ys)) (min (lev (x :: xs) ys) (lev xs ys)) by
      simp [lev, hxy]]
    cases h with
    | copy _ h' => exact absurd rfl hxy
    | subst _ _ h' =>
      have h3 := ih3 _ h'
      have hmin : min (lev xs (y :: ys)) (min (lev (x :: xs) ys) (lev xs ys)) ≤
          lev xs ys := le_trans (Nat.min_le_right _ _) (Nat.min_le_right _ _)
      omega
    | del _ h' =>
      have h1 := ih1 _ h'
      have hmin : min (lev xs (y :: ys)) (min (lev (x :: xs) ys) (lev xs ys)) ≤
          lev xs (y :: ys) := Nat.min_le_left _ _
      omega
    | ins _ h' =>
      have h2 := ih2 _ h'
      have hmin : min (lev xs (y :: ys)) (min (lev (x :: xs) ys) (lev xs ys)) ≤
          lev (x :: xs) ys := le_trans (Nat.min_le_right _ _) (Nat.min_le_left _ _)
      omega

theorem take_succ_reverse (a : List Char) (x : ℕ) (h : x < a.length) :
    (a.take (x + 1)).reverse = a[x] :: (a.take x).reverse := by
  rw [List.take_succ, List.getElem?_eq_getElem h]
  simp

/-- The source's prefix-indexed table agrees with the structural recursion on
the reversed prefixes. -/
theorem distTable_eq_lev (a b : List Char) :
    ∀ n x y, x + y ≤ n → x ≤ a.length → y ≤ b.length →
      distTable a b x y = lev (a.take x).reverse (b.take y).reverse := by
  intro n
  induction n with
  | zero =>
    intro x y hn _ _
    have hx : x = 0 := by omega
    have hy : y = 0 := by omega
    subst hx
    subst hy
    simp [lev]
  | succ n ih =>
    intro x y hn hx hy
    match x, y with
    | 0, y =>
      rw [distTable_zero_left, List.take_zero, List.reverse_nil, lev_nil_left]
      simp [List.length_take, Nat.min_eq_left hy]
    | x + 1, 0 =>
      rw [distTable_zero_right, List.take_zero, List.reverse_nil, lev_nil_right]
      simp [List.length_take, Nat.min_eq_left hx]
    | x + 1, y + 1 =>
      have hx' : x < a.length := by omega
      have hy' : y < b.length := by omega
      rw [distTable_succ_succ,
        ih x (y + 1) (by omega) (by omega) (by omega),
        ih (x + 1) y (by omega) (by omega) (by omega),
        ih x y (by omega) (by omega) (by omega),
        take_succ_reverse a x hx', take_succ_reverse b y hy',
        List.getElem?_eq_getElem hx', List.getElem?_eq_getElem hy']
      rw [show lev (a[x] :: (a.take x).reverse) (b[y] :: (b.take y).reverse) =
          if a[x] = b[y] then lev (a.take x).reverse (b.take y).reverse
          else 1 + min (lev (a.take x).reverse (b[y] :: (b.take y).reverse))
            (min (lev (a[x] :: (a.take x).reverse) (b.take y).reverse)
              (lev (a.take x).reverse (b.take y).reverse)) by
        simp [lev]]
      by_cases hc : a[x] = b[y]
      · rw [if_pos (by rw [hc]), if_pos hc]
      · rw [if_neg (by simpa using hc), if_neg hc]

theorem fullStringDistance_eq_lev (a b : List Char) :
    fullStringDistance a b = lev a.reverse b.reverse := by
  unfold fullStringDistance
  split
  · rename_i ha
    have : a = [] := List.eq_nil_of_length_eq_zero ha
    subst this
    simp [lev_nil_left]
  · split
    · rename_i hb
      have : b = [] := List.eq_nil_of_length_eq_zero hb
      subst this
      rw [List.reverse_nil, lev_nil_right]
      simp
    · rw [distTable_eq_lev a b (a.length + b.length) a.length b.length le_rfl le_rfl
        le_rfl, List.take_length, List.take_length]

theorem aligns_snoc_copy (c : Char) {u v : List Char} {n : ℕ} (h : Aligns u v n) :
    Aligns (u ++ [c]) (v ++ [c]) n := by
  induction h with
  | nil => exact Aligns.copy c Aligns.nil
  | copy d h ih => exact Aligns.copy d ih
  | subst d e h ih => exact Aligns.subst d e ih
  | del d h ih => exact Aligns.del d ih
  | ins e h ih => exact Aligns.ins e ih

theorem aligns_snoc_subst (c d : Char) {u v : List Char} {n : ℕ}
    (h : Aligns u v n) : Aligns (u ++ [c]) (v ++ [d]) (n + 1) := by
  induction h with
  | nil => exact Aligns.subst c d Aligns.nil
  | copy e h ih => exact Aligns.copy e ih
  | subst e f h ih => exact Aligns.subst e f ih
  | del e h ih => exact Aligns.del e ih
  | ins f h ih => exact Aligns.ins f ih

theorem aligns_snoc_del (c : Char) {u v : List Char} {n : ℕ} (h : Aligns u v n) :
    Aligns (u ++ [c]) v (n + 1) := by
  induction h with
  | nil => exact Aligns.del c Aligns.nil
  | copy e h ih => exact Aligns.copy e ih
  | subst e f h ih => exact Aligns.subst e f ih
  | del e h ih => exact Aligns.del e ih
  | ins f h ih => exact Aligns.ins f ih

theorem aligns_snoc_ins (d : Char) {u v : List Char} {n : ℕ} (h : Aligns u v n) :
    Aligns u (v ++ [d]) (n + 1) := by
  induction h with
  | nil => exact Aligns.ins d Aligns.nil
  | copy e h ih => exact Aligns.copy e ih
  | subst e f h ih => exact Aligns.subst e f ih
  | del e h ih => exact Aligns.del e ih
  | ins f h ih => exact Aligns.ins f ih

/-- Edit scripts transport along string reversal at the same cost. -/
theorem aligns_reverse {u v : List Char} {n : ℕ} (h : Aligns u v n) :
    Aligns u.reverse v.reverse n := by
  induction h with
  | nil => exact Aligns.nil
  | copy c h ih => simpa [List.reverse_cons] using aligns_snoc_copy c ih
  | subst c d h ih => simpa [List.reverse_cons] using aligns_snoc_subst c d ih
  | del c h ih => simpa [List.reverse_cons] using aligns_snoc_del c ih
  | ins d h ih => simpa [List.reverse_cons] using aligns_snoc_ins d ih

/-- Claim C1: `fullStringDistance` computes exactly the Levenshtein edit
distance — it is the least cost of an edit script of single-character
substitutions, deletions and insertions (cost 1 each) transforming the first
string into the second; and when either string is empty it returns the other
string's length. -/
theorem claim_C1_fullStringDistance_levenshtein (a b : List Char) :
    IsLeast {n | Aligns a b n} (fullStringDistance a b) ∧
    (a = [] → fullStringDistance a b = b.length) ∧
    (b = [] → fullStringDistance a b = a.length) := by
  refine ⟨⟨?_, ?_⟩, ?_, ?_⟩
  · show Aligns a b (fullStringDistance a b)
    rw [fullStringDistance_eq_lev]
    have h := aligns_reverse (aligns_lev a.reverse b.reverse)
    simpa using h
  · intro n hn
    rw [fullStringDistance_eq_lev]
    exact lev_le_of_aligns _ _ n (aligns_reverse hn)
  · intro ha
    subst ha
    simp [fullStringDistance]
  · intro hb
    subst hb
    unfold fullStringDistance
    split
    · rename_i ha
      simp [List.eq_nil_of_length_eq_zero ha]
    · simp

/-! SimilarityScorer: the substring bonus (C2) and symmetry (C8). -/

/-- On non-empty inputs, `typeaheadSimilarity` reduces to the swapped pair's
branch structure with the pre-swap lengths. -/
theorem typeaheadSimilarity_of_ne (a b : List Char) (ha : a ≠ []) (hb : b ≠ []) :
    typeaheadSimilarity a b =
      if (swapPair a b).2 <:+: (swapPair a b).1 then
        (b.length : ℚ) + 1 / (a.length : ℚ)
      else (lcsTable (swapPair a b).1 (swapPair a b).2 a.length b.length : ℚ) := by
  unfold typeaheadSimilarity
  rw [if_neg]
  push_neg
  exact ⟨fun h => ha (List.eq_nil_of_length_eq_zero h),
    fun h => hb (List.eq_nil_of_length_eq_zero h)⟩

/-- Claim C2, counterexample.  First input `("B", "AB")`: the swap makes the
pair `("AB", "B")`, a substring match, and the claim predicts
`bLength + 1/aLength = 1 + 1/2` (post-swap lengths) and a score strictly
below `bLength + 1 = 2`; but the code froze `aLength = 1`, `bLength = 2`
before the swap and returns `2 + 1/1 = 3`.  Second input `("A", "A")`: no
swap, the score is `1 + 1/1 = 2`, which reaches `bLength + 1`, refuting the
claimed strict bound even on unswapped calls. -/
theorem claim_C2_counterexample :
    (typeaheadSimilarity ['B'] ['A', 'B'] = 3 ∧
      ¬ typeaheadSimilarity ['B'] ['A', 'B'] =
        ((swapPair ['B'] ['A', 'B']).2.length : ℚ) +
          1 / ((swapPair ['B'] ['A', 'B']).1.length : ℚ) ∧
      ¬ typeaheadSimilarity ['B'] ['A', 'B'] <
        ((swapPair ['B'] ['A', 'B']).2.length : ℚ) + 1) ∧
    (typeaheadSimilarity ['A'] ['A'] = 2 ∧
      ¬ typeaheadSimilarity ['A'] ['A'] <
        ((swapPair ['A'] ['A']).2.length : ℚ) + 1) := by
  with_unfolding_all decide

/-- Claim C2, amended: the lengths in the bonus are the ones captured BEFORE
the swap, so whenever the swapped pair is a substring match the score equals
`b.length + 1/a.length` in the ORIGINAL argument order; it strictly exceeds
`b.length`, and stays strictly below `b.length + 1` whenever `a.length ≥ 2`.
When `a` is the not-shorter string (no swap happens) these are exactly the
claim's post-swap `bLength` and `aLength`; on swapped calls the code instead
returns `longerLength + 1/shorterLength`, which exceeds the shorter length
plus one. -/
theorem claim_C2_substring_bonus (a b : List Char) (ha : a ≠ []) (hb : b ≠ [])
    (hsub : (swapPair a b).2 <:+: (swapPair a b).1) :
    typeaheadSimilarity a b = (b.length : ℚ) + 1 / (a.length : ℚ) ∧
    (b.length : ℚ) < typeaheadSimilarity a b ∧
    (2 ≤ a.length → typeaheadSimilarity a b < (b.length : ℚ) + 1) := by
  have heq := typeaheadSimilarity_of_ne a b ha hb
  rw [if_pos hsub] at heq
  have hA : 0 < a.length := List.length_pos.mpr ha
  have hAq : (0 : ℚ) < (a.length : ℚ) := by exact_mod_cast hA
  refine ⟨heq, ?_, ?_⟩
  · rw [heq]
    have : 0 < 1 / (a.length : ℚ) := by positivity
    linarith
  · intro h2
    rw [heq]
    have h2q : (2 : ℚ) ≤ (a.length : ℚ) := by exact_mod_cast h2
    have : 1 / (a.length : ℚ) < 1 := by
      rw [div_lt_one hAq]
      linarith
    linarith

/-- Witness for the amended C2: `a = "AB"`, `b = "B"`; no swap occurs, the
pair is `("AB", "B")`, a substring match with `a.length = 2`. -/
theorem claim_C2_substring_bonus_witness :
    typeaheadSimilarity ['A', 'B'] ['B'] =
      ((['B'] : List Char).length : ℚ) + 1 / ((['A', 'B'] : List Char).length : ℚ) ∧
    ((['B'] : List Char).length : ℚ) < typeaheadSimilarity ['A', 'B'] ['B'] ∧
    (2 ≤ (['A', 'B'] : List Char).length →
      typeaheadSimilarity ['A', 'B'] ['B'] <
        ((['B'] : List Char).length : ℚ) + 1) :=
  claim_C2_substring_bonus ['A', 'B'] ['B'] (by decide) (by decide) (by decide)

/-- Claim C8 states a symmetry the code does not have: `aLength` and
`bLength` are captured before the swap and remain the loop bounds of the LCS
table, so passing the shorter string first computes the LCS of the LONGER
string's first `aLength` characters against the shorter string.  On the
failing input below, `typeaheadSimilarity("AXB", "AB")` fills the full table
and returns `LCS("AXB", "AB") = 2`, while `typeaheadSimilarity("AB", "AXB")`
swaps to `("AXB", "AB")` but keeps bounds `aLength = 2`, `bLength = 3` and
returns `LCS("AX", "AB") = 1`.  Both strings are non-empty and neither is a
contiguous substring of the other, so the claimed equality fails.  The swap
exists precisely to normalize the argument order (its comment reads "Ensure
a isn't shorter than b", and the doc comment advertises that the arguments
are flipped when needed), so the stale bounds — which also make the inner
loop read past the end of the shorter string — are a slip in the code, not
in the claim. -/
theorem claim_C8_failing_input :
    typeaheadSimilarity ['A', 'X', 'B'] ['A', 'B'] = 2 ∧
    typeaheadSimilarity ['A', 'B'] ['A', 'X', 'B'] = 1 ∧
    ¬ (['A', 'X', 'B'] : List Char) <:+: ['A', 'B'] ∧
    ¬ (['A', 'B'] : List Char) <:+: ['A', 'X', 'B'] := by
  with_unfolding_all decide

/-! Normalizer: output alphabet and idempotence. -/

/-- Characters that can appear in the output of `cleanUpText` when no
substitution table is given: ASCII digits, ASCII uppercase letters, and the
division sign `÷` (`U+00F7`, the unique non-letter of the preserved range
`U+00E0`–`U+00FC`, and the only member of that range fixed by uppercasing). -/
def cleanChar (c : Char) : Bool :=
  decide ((0x30 ≤ c.toNat ∧ c.toNat ≤ 0x39) ∨ (0x41 ≤ c.toNat ∧ c.toNat ≤ 0x5A) ∨
    c.toNat = 0xF7)

theorem toNat_ofNat_of_lt (n : ℕ) (h : n < 0xD800) : (Char.ofNat n).toNat = n := by
  rw [Char.ofNat, dif_pos (Or.inl h)]
  rfl

theorem cleanChar_of_mem_jsUpperChar (c d : Char) (hmem : c ∈ jsUpperChar d)
    (hkeep : keepChar c = true) : cleanChar c = true := by
  simp only [keepChar, decide_eq_true_eq] at hkeep
  simp only [cleanChar, decide_eq_true_eq]
  unfold jsUpperChar at hmem
  split_ifs at hmem with h1 h2 h3 h4 h5
  · simp only [List.mem_singleton] at hmem
    subst hmem
    rw [toNat_ofNat_of_lt _ (by omega)]
    omega
  · simp only [List.mem_singleton] at hmem
    subst hmem
    rw [toNat_ofNat_of_lt _ (by omega)] at hkeep
    omega
  · simp only [List.mem_cons, List.not_mem_nil, or_false] at hmem
    rcases hmem with h | h <;> subst h <;> decide
  · simp only [List.mem_singleton] at hmem
    subst hmem
    rw [toNat_ofNat_of_lt _ (by omega)] at hkeep ⊢
    omega
  · simp only [List.mem_singleton] at hmem
    subst hmem
    rw [toNat_ofNat_of_lt _ (by omega)] at hkeep
    omega
  · simp only [List.mem_singleton] at hmem
    subst hmem
    omega

theorem cleanChar_of_mem_cleanUpText (s : List Char) (c : Char)
    (h : c ∈ cleanUpText s []) : cleanChar c = true := by
  unfold cleanUpText at h
  split at h
  · simp at h
  · simp only [List.foldl_nil, stripSymbols, jsToUpperCase, List.mem_filter,
      List.mem_flatMap] at h
    obtain ⟨⟨d, _, hmem⟩, hkeep⟩ := h
    exact cleanChar_of_mem_jsUpperChar c d hmem hkeep

theorem jsUpperChar_of_cleanChar (c : Char) (h : cleanChar c = true) :
    jsUpperChar c = [c] := by
  simp only [cleanChar, decide_eq_true_eq] at h
  unfold jsUpperChar
  rw [if_neg (by omega), if_neg (by omega), if_neg (by omega), if_neg (by omega),
    if_neg (by omega)]

theorem keepChar_of_cleanChar (c : Char) (h : cleanChar c = true) :
    keepChar c = true := by
  simp only [cleanChar, decide_eq_true_eq] at h
  simp only [keepChar, decide_eq_true_eq]
  omega

theorem jsToUpperCase_fixed (t : List Char) (h : ∀ c ∈ t, cleanChar c = true) :
    jsToUpperCase t = t := by
  unfold jsToUpperCase
  induction t with
  | nil => rfl
  | cons c t ih =>
    rw [List.flatMap_cons, jsUpperChar_of_cleanChar c (h c (List.mem_cons_self c t)),
      ih (fun d hd => h d (List.mem_cons_of_mem c hd))]
    rfl

theorem cleanUpText_fixed (t : List Char) (h : ∀ c ∈ t, cleanChar c = true) :
    cleanUpText t [] = t := by
  unfold cleanUpText
  split
  · rename_i ht
    exact ht.symm
  · simp only [List.foldl_nil]
    rw [jsToUpperCase_fixed t h]
    exact List.filter_eq_self.mpr fun c hc => keepChar_of_cleanChar c (h c hc)

/-- Claim C9: `cleanUpText` with no substitution table is idempotent.  Every
character surviving one pass is an ASCII digit, an ASCII uppercase letter, or
`÷`, and each of those is fixed by uppercasing and kept by the strip step. -/
theorem claim_C9_cleanUpText_idempotent (s : List Char) :
    cleanUpText (cleanUpText s []) [] = cleanUpText s [] :=
  cleanUpText_fixed _ (cleanChar_of_mem_cleanUpText s)

/-- Claim C10: with no substitution table, every character of the string
returned by `cleanUpText` is an ASCII decimal digit, an ASCII uppercase
letter `A`–`Z`, or the division sign `÷` (`U+00F7`); in particular no accented
letter ever appears, because uppercasing precedes stripping and maps the
lowercase accented letters out of the preserved range `U+00E0`–`U+00FC`. -/
theorem claim_C10_output_alphabet (s : List Char) (c : Char)
    (h : c ∈ cleanUpText s []) :
    (0x30 ≤ c.toNat ∧ c.toNat ≤ 0x39) ∨ (0x41 ≤ c.toNat ∧ c.toNat ≤ 0x5A) ∨
      c.toNat = 0xF7 := by
  have := cleanChar_of_mem_cleanUpText s c h
  simpa [cleanChar, decide_eq_true_eq] using this

/-- Witness for C10 at the concrete input `"aé÷!"`. -/
theorem claim_C10_output_alphabet_witness :
    ('A' ∈ cleanUpText ['a', 'é', '÷', '!'] []) ∧
      ((0x30 ≤ 'A'.toNat ∧ 'A'.toNat ≤ 0x39) ∨ (0x41 ≤ 'A'.toNat ∧ 'A'.toNat ≤ 0x5A) ∨
        'A'.toNat = 0xF7) :=
  ⟨by decide, claim_C10_output_alphabet ['a', 'é', '÷', '!'] 'A' (by decide)⟩

/-- Claim C4, counterexample: the code does not preserve `í`.  The input is
uppercased first, `í` becomes `Í` (`U+00CD`), which lies outside the preserved
range `U+00E0`–`U+00FC` and is stripped, so the result is
`"SCOILBHRDEPRIMARYSCHOOL"` and not the claimed `"SCOILBHRIDEPRIMARYSCHOOL"`. -/
theorem claim_C4_counterexample :
    cleanUpText scoilInput [] ≠ scoilClaimed := by
  decide

/-- Claim C4, amended: `cleanUpText "Scoil Bhríde Primary School"` with no
substitution table returns `"SCOILBHRDEPRIMARYSCHOOL"`: spaces are removed and
letters uppercased, but the accented `í` is deleted, because uppercasing
happens before stripping and `Í` falls outside the preserved `à`–`ü` range. -/
theorem claim_C4_amended :
    cleanUpText scoilInput [] = scoilActual := by
  decide

/-! OptionFilter: identity on the empty filter, exclusion of malformed
options, membership threshold, and sortedness. -/

/-- Claim C5: with an empty filter (the absent/null filter is the same falsy
branch of the source) `filterOptions` returns the option list unchanged —
same elements in the same order, no normalization and no dropping, even of
options whose label or value is `none`. -/
theorem claim_C5_empty_filter_identity (options : List SelectOption)
    (substitutions : SubTable) :
    filterOptions options [] substitutions = options := rfl

/-- Claim C6, counterexample: with the EMPTY filter string, `filterOptions`
returns the input unchanged, so an option whose label and value are both
`none` does appear in the result; the claim quantifies over every filter
string and is therefore false. -/
theorem claim_C6_counterexample :
    (⟨none, none⟩ : SelectOption) ∈ filterOptions [⟨none, none⟩] [] [] ∧
      (⟨none, none⟩ : SelectOption).label = none := ⟨by decide, rfl⟩

/-- Claim C6, amended: for every NON-EMPTY filter string, the list returned by
`filterOptions` never contains an option whose label or value was
null/absent in the input (for the empty filter the list is returned
unchanged, malformed entries included). -/
theorem claim_C6_amended (options : List SelectOption) (filter : List Char)
    (substitutions : SubTable) (o : SelectOption) (hf : filter ≠ [])
    (ho : o ∈ filterOptions options filter substitutions) :
    o.label ≠ none ∧ o.value ≠ none := by
  unfold filterOptions at ho
  rw [if_neg hf] at ho
  simp only [List.mem_map] at ho
  obtain ⟨p, hp, rfl⟩ := ho
  rw [List.mem_mergeSort] at hp
  have hp2 := List.mem_of_mem_filter hp
  simp only [List.mem_map] at hp2
  obtain ⟨q, hq, rfl⟩ := hp2
  have hwf := List.of_mem_filter hq
  simp only [Bool.and_eq_true, Option.isSome_iff_ne_none] at hwf
  exact hwf

/-- Claim C3: for every non-empty filter, every substitution table, and every
option of the list with non-null label and value, membership in the result of
`filterOptions` is equivalent to the normalized label's similarity score
reaching `cleanFilter.length - 2`; and since the threshold is not clamped at
zero, a filter that normalizes to the empty string accepts every such
option (its threshold `-2` is below the never-negative score). -/
theorem claim_C3_membership_threshold (options : List SelectOption)
    (filter : List Char) (substitutions : SubTable) (o : SelectOption)
    (l : List Char) (v : ℕ) (hf : filter ≠ []) (hl : o.label = some l)
    (hv : o.value = some v) (ho : o ∈ options) :
    (o ∈ filterOptions options filter substitutions ↔
      ((cleanUpText filter substitutions).length : ℚ) - 2 ≤
        typeaheadSimilarity (cleanUpText l substitutions)
          (cleanUpText filter substitutions)) ∧
    (cleanUpText filter substitutions = [] →
      o ∈ filterOptions options filter substitutions) := by
  have hiff : o ∈ filterOptions options filter substitutions ↔
      ((cleanUpText filter substitutions).length : ℚ) - 2 ≤
        typeaheadSimilarity (cleanUpText l substitutions)
          (cleanUpText filter substitutions) := by
    unfold filterOptions
    rw [if_neg hf]
    simp only [List.mem_map]
    constructor
    · rintro ⟨p, hp, rfl⟩
      rw [List.mem_mergeSort] at hp
      have hthr := List.of_mem_filter hp
      have hp2 := List.mem_of_mem_filter hp
      simp only [List.mem_map] at hp2
      obtain ⟨q, _, rfl⟩ := hp2
      simp only [decide_eq_true_eq] at hthr
      rw [show q.label = some l from hl, Option.getD_some] at hthr
      exact hthr
    · intro hscore
      refine ⟨(o, typeaheadSimilarity (cleanUpText (o.label.getD []) substitutions)
        (cleanUpText filter substitutions)), ?_, rfl⟩
      rw [List.mem_mergeSort]
      refine List.mem_filter.mpr ⟨?_, ?_⟩
      · exact List.mem_map.mpr ⟨o, List.mem_filter.mpr ⟨ho, by simp [hl, hv]⟩, rfl⟩
      · simp only [decide_eq_true_eq, hl, Option.getD_some]
        exact hscore
  refine ⟨hiff, fun hcf => hiff.mpr ?_⟩
  rw [hcf]
  have hnn := typeaheadSimilarity_nonneg (cleanUpText l substitutions) []
  simp only [List.length_nil, Nat.cast_zero, zero_sub]
  linarith

/-- Witness for C3 at a concrete option list: the option labelled `"A"` with
filter `"A"` survives, and its score meets the threshold. -/
theorem claim_C3_membership_threshold_witness :
    ((⟨some ['A'], some 0⟩ : SelectOption) ∈
        filterOptions [⟨some ['A'], some 0⟩] ['A'] [] ↔
      ((cleanUpText ['A'] []).length : ℚ) - 2 ≤
        typeaheadSimilarity (cleanUpText ['A'] []) (cleanUpText ['A'] [])) ∧
    (cleanUpText ['A'] [] = [] →
      (⟨some ['A'], some 0⟩ : SelectOption) ∈
        filterOptions [⟨some ['A'], some 0⟩] ['A'] []) :=
  claim_C3_membership_threshold [⟨some ['A'], some 0⟩] ['A'] []
    ⟨some ['A'], some 0⟩ ['A'] 0 (by decide) rfl rfl (by decide)

/-- The sort step of `filterOptions` leaves score/option pairs pairwise
non-increasing in their scores. -/
theorem mergeSort_desc_pairwise (l : List (SelectOption × ℚ)) :
    (l.mergeSort fun p q => decide (q.2 ≤ p.2)).Pairwise (fun p q => q.2 ≤ p.2) := by
  have h : (l.mergeSort fun p q => decide (q.2 ≤ p.2)).Pairwise
      (fun p q : SelectOption × ℚ => decide (q.2 ≤ p.2) = true) :=
    List.sorted_mergeSort
      (fun p q r hpq hqr => by
        simp only [decide_eq_true_eq] at hpq hqr ⊢
        exact le_trans hqr hpq)
      (fun p q => by
        simp only [Bool.or_eq_true, decide_eq_true_eq]
        exact le_total q.2 p.2) l
  exact h.imp fun hab => by simpa using hab

/-- Claim C7: for every non-empty filter string, the list returned by
`filterOptions` is sorted in non-increasing order of each surviving option's
similarity score (its normalized label scored against the normalized filter);
no particular order among equal scores is imposed. -/
theorem claim_C7_sorted_by_score (options : List SelectOption) (filter : List Char)
    (substitutions : SubTable) (hf : filter ≠ []) :
    (filterOptions options filter substitutions).Sorted (fun o o' =>
      typeaheadSimilarity (cleanUpText (o'.label.getD []) substitutions)
          (cleanUpText filter substitutions) ≤
        typeaheadSimilarity (cleanUpText (o.label.getD []) substitutions)
          (cleanUpText filter substitutions)) := by
  unfold filterOptions
  rw [if_neg hf]
  unfold List.Sorted
  rw [List.pairwise_map]
  refine List.Pairwise.imp_of_mem ?_ (mergeSort_desc_pairwise _)
  intro p q hp hq hle
  rw [List.mem_mergeSort] at hp hq
  have hp2 := List.mem_of_mem_filter hp
  have hq2 := List.mem_of_mem_filter hq
  simp only [List.mem_map] at hp2 hq2
  obtain ⟨a, _, rfl⟩ := hp2
  obtain ⟨b, _, rfl⟩ := hq2
  exact hle

/-- Witness for C7 at a concrete option list and filter. -/
theorem claim_C7_sorted_by_score_witness :
    (filterOptions [⟨some ['A'], some 0⟩] ['A'] []).Sorted (fun o o' =>
      typeaheadSimilarity (cleanUpText (o'.label.getD []) []) (cleanUpText ['A'] []) ≤
        typeaheadSimilarity (cleanUpText (o.label.getD []) []) (cleanUpText ['A'] [])) :=
  claim_C7_sorted_by_score [⟨some ['A'], some 0⟩] ['A'] [] (by decide)

/-- Witness for the amended C6 at a concrete well-formed surviving option. -/
theorem claim_C6_amended_witness :
    ((['A'] : List Char) ≠ []) ∧
      (⟨some ['A'], some 0⟩ : SelectOption).label ≠ none ∧
      (⟨some ['A'], some 0⟩ : SelectOption).value ≠ none :=
  ⟨by decide,
    claim_C6_amended [⟨some ['A'], some 0⟩] ['A'] [] ⟨some ['A'], some 0⟩
      (by decide) (by with_unfolding_all decide)⟩

end FuzzyMatch
